import Mathlib

/-!
Verification of the retrieval-and-filtering pipeline of the github-analysis
service (src/functions.py, src/app.py).

Python strings are embedded as lists of characters (`PyStr`); the Python
string primitives used by the source (`str.lower`, `str.split`,
`str.endswith`, substring membership `in`, `re.sub` over fixed character
classes, `str.strip`) are embedded as structural functions below.
-/

abbrev PyStr := List Char

/-- Python `str.lower()` (ASCII case folding, which is all the source relies on). -/
def pyLower (s : PyStr) : PyStr := s.map Char.toLower

/-- Python `str.split(sep)` for a one-character separator: `"".split` gives
`[""]`, and every separator occurrence opens a new (possibly empty) field. -/
def pySplit (sep : Char) : PyStr → List PyStr
  | [] => [[]]
  | c :: cs =>
    if c = sep then [] :: pySplit sep cs
    else
      match pySplit sep cs with
      | [] => [[c]]
      | p :: ps => (c :: p) :: ps

/-- Whether `needle` occurs at the head of the haystack (Python
slice-equality helper). -/
def isSubAt : PyStr → PyStr → Bool
  | [], _ => true
  | _ :: _, [] => false
  | a :: as, b :: bs => a == b && isSubAt as bs

/-- Python substring membership `needle in hay` on strings. -/
def containsSub (needle : PyStr) : PyStr → Bool
  | [] => needle.isEmpty
  | c :: cs => isSubAt needle (c :: cs) || containsSub needle cs

/-- Python `s.endswith(suffix)`. -/
def pyEndsWith (s suffix : PyStr) : Bool :=
  isSubAt suffix.reverse s.reverse

/-- The character class `[\x00-\x1F\x7F-\x9F]` of the control-stripping
regex in `clean_input` (src/functions.py line 65). -/
def isControl (c : Char) : Bool :=
  c.toNat ≤ 0x1F || (0x7F ≤ c.toNat && c.toNat ≤ 0x9F)

/-- The character class matched by Python's `\s` on `str` (also the class
stripped by `str.strip()`): ASCII whitespace, the information separators,
and the Unicode space characters. -/
def isPySpace (c : Char) : Bool :=
  let n := c.toNat
  (9 ≤ n && n ≤ 13) || (28 ≤ n && n ≤ 31) || n == 32 || n == 0x85 || n == 0xA0 ||
  n == 0x1680 || (0x2000 ≤ n && n ≤ 0x200A) || n == 0x2028 || n == 0x2029 ||
  n == 0x202F || n == 0x205F || n == 0x3000

/-- src/functions.py lines 25-33. -/
def SUPPORTED_FILE_EXTENSIONS : List PyStr := [
  ".js".data, ".jsx".data, ".ts".data, ".tsx".data,
  ".html".data, ".htm".data,
  ".css".data, ".scss".data, ".sass".data,
  ".java".data, ".cs".data,
  ".py".data, ".sql".data,
  ".c".data, ".cpp".data, ".h".data, ".hpp".data,
  ".vb".data, ".aspx".data, ".cshtml".data, ".vbhtml".data
]

/-- src/functions.py lines 35-57. -/
def FORBIDDEN_FOLDERS : List PyStr := [
  "node_modules".data,
  ".next".data,
  "__pycache__".data,
  "venv".data, "env".data,
  "bin".data, "obj".data,
  "build".data, "dist".data,
  "target".data,
  "vendor".data,
  ".vs".data, ".vscode".data,
  "packages".data,
  "bower_components".data,
  "jspm_packages".data,
  "tmp".data, "temp".data,
  "logs".data,
  ".sass-cache".data,
  ".tsbuildinfo".data,
  "out".data,
  "Debug".data, "Release".data,
  ".idea".data,
  ".gradle".data,
  "migrations".data
]

/-- src/functions.py lines 69-74: reject any path one of whose
lowercased `/`-segments equals a lowercased forbidden folder name,
otherwise accept iff the lowercased path ends with a supported extension. -/
def should_process_path (path : PyStr) : Bool :=
  let path_parts := pySplit '/' (pyLower path)
  if FORBIDDEN_FOLDERS.any (fun folder => path_parts.contains (pyLower folder)) then
    false
  else
    SUPPORTED_FILE_EXTENSIONS.any (fun ext => pyEndsWith (pyLower path) (pyLower ext))

/-- Python `re.sub` with the control-character class and empty
replacement: drop every matching character. -/
def removeControls (s : PyStr) : PyStr := s.filter (fun c => !(isControl c))

/-- Python `re.sub` with pattern `\s+` and replacement `" "`: each maximal
run of whitespace becomes a single space.  The flag records whether the
previous kept position was inside a whitespace run. -/
def collapseAux : Bool → PyStr → PyStr
  | _, [] => []
  | prev, c :: cs =>
    if isPySpace c then
      if prev then collapseAux true cs else ' ' :: collapseAux true cs
    else c :: collapseAux false cs

/-- Python `str.lstrip()`. -/
def pyLStrip (s : PyStr) : PyStr := s.dropWhile isPySpace

/-- Python `str.rstrip()`. -/
def pyRStrip (s : PyStr) : PyStr := (s.reverse.dropWhile isPySpace).reverse

/-- Python `str.strip()`. -/
def pyStrip (s : PyStr) : PyStr := pyRStrip (pyLStrip s)

/-- src/functions.py lines 64-67. -/
def clean_input (text : PyStr) : PyStr :=
  pyStrip (collapseAux false (removeControls text))

/-- No two adjacent characters of the list are both whitespace. -/
def noTwoSpaces : PyStr → Bool
  | [] => true
  | [_] => true
  | a :: b :: rest => !(isPySpace a && isPySpace b) && noTwoSpaces (b :: rest)

/-!
Model of the GitHub contents API consumed by `fetch_github_code`
(src/functions.py lines 76-112).  A repository is a forest of entries,
each carrying its full path as the API reports it; a file's decoded
UTF-8 content is `some data`, and `none` stands for a base64/UTF-8
decode failure (the `except` branch at lines 98-100).
-/

inductive GHEntry : Type where
  | file (path : PyStr) (content : Option PyStr)
  | dir (path : PyStr) (children : List GHEntry)

mutual

/-- Number of entries in a subtree (for traversal termination). -/
def entrySize : GHEntry → Nat
  | .file _ _ => 1
  | .dir _ cs => 1 + sizeL cs

/-- Number of entries in a forest. -/
def sizeL : List GHEntry → Nat
  | [] => 0
  | e :: es => entrySize e + sizeL es

end

theorem sizeL_cons (e : GHEntry) (q : List GHEntry) :
    sizeL (e :: q) = entrySize e + sizeL q := by
  simp [sizeL]

theorem sizeL_append (q₁ q₂ : List GHEntry) :
    sizeL (q₁ ++ q₂) = sizeL q₁ + sizeL q₂ := by
  induction q₁ with
  | nil => simp [sizeL]
  | cons e es ih => simp [sizeL_cons, ih]; omega

theorem entrySize_pos (e : GHEntry) : 1 ≤ entrySize e := by
  cases e <;> simp [entrySize]

/-- src/functions.py line 90: a directory is pruned when its lowercased
path contains a lowercased forbidden folder name as a substring. -/
def prunedDir (p : PyStr) : Bool :=
  FORBIDDEN_FOLDERS.any (fun folder => containsSub (pyLower folder) (pyLower p))

/-- src/functions.py lines 86-100: the work-queue traversal.  Entries are
popped from the front; a directory that survives the substring check has
its children appended at the back; a file passing the path filter
contributes the pair (path, decoded content) unless decoding failed.
The accumulated `code_content` is the fold of the returned segment list. -/
def fetchLoop : List GHEntry → List (PyStr × PyStr)
  | [] => []
  | .dir p cs :: rest =>
    if prunedDir p then fetchLoop rest
    else fetchLoop (rest ++ cs)
  | .file p content :: rest =>
    if should_process_path p then
      match content with
      | some data => (p, data) :: fetchLoop rest
      | none => fetchLoop rest
    else fetchLoop rest
termination_by q => sizeL q
decreasing_by
  all_goals
    simp only [sizeL_cons, sizeL_append, entrySize]
    omega

/-- Every file path in the forest, in traversal-independent order. -/
def allFiles : List GHEntry → List PyStr
  | [] => []
  | .dir _ cs :: rest => allFiles cs ++ allFiles rest
  | .file p _ :: rest => p :: allFiles rest
termination_by q => sizeL q
decreasing_by
  all_goals
    simp only [sizeL_cons, sizeL_append, entrySize]
    omega

/-- The file paths the traversal can reach and keep: accepted by the path
filter, decodable, and under no directory pruned by the substring check. -/
def reachFiles : List GHEntry → List PyStr
  | [] => []
  | .dir p cs :: rest =>
    (if prunedDir p then [] else reachFiles cs) ++ reachFiles rest
  | .file p c :: rest =>
    (if should_process_path p && c.isSome then [p] else []) ++ reachFiles rest
termination_by q => sizeL q
decreasing_by
  all_goals
    simp only [sizeL_cons, sizeL_append, entrySize]
    omega

/-- A `GithubException` raised by the hosting API: its HTTP status and
its message text. -/
structure GHException : Type where
  status : Nat
  msg : PyStr
deriving Repr, DecidableEq

/-- Outcome of `g.get_repo(...)` plus the tree listing: either the
repository's forest of entries or a `GithubException`. -/
inductive GHRepoResult : Type where
  | ok (root : List GHEntry)
  | err (e : GHException)

/-- A Python exception relevant to the endpoint: a FastAPI
`HTTPException(status, detail)`, or any other exception with its message. -/
inductive PyExn : Type where
  | http (status : Nat) (detail : PyStr)
  | other (msg : PyStr)
deriving Repr, DecidableEq

/-- src/functions.py lines 77-78: `parts = github_url.split('/')`,
`owner, repo = parts[-2], parts[-1]`.  `none` models the `IndexError`
Python raises when the split yields fewer than two components. -/
def repoId (github_url : PyStr) : Option (PyStr × PyStr) :=
  let parts := pySplit '/' github_url
  if h : 2 ≤ parts.length then
    some (parts.get ⟨parts.length - 2, by omega⟩, parts.get ⟨parts.length - 1, by omega⟩)
  else none

/-- src/functions.py lines 76-112.  The hosting service is the function
`gh`, mapping the `owner/repo` string to the repository result. -/
def fetch_github_code (gh : PyStr → GHRepoResult) (github_url : PyStr) :
    Except PyExn PyStr :=
  match repoId github_url with
  | none => .error (.other "list index out of range".data)
  | some (owner, repo) =>
    match gh (owner ++ '/' :: repo) with
    | .err e =>
      if e.status = 401 then
        .error (.http 401 "GitHub authentication failed. Please check your access token.".data)
      else if e.status = 404 then
        .error (.http 404 "GitHub repository not found. Please check the URL.".data)
      else
        .error (.http 500 ("GitHub API error: ".data ++ e.msg))
    | .ok root =>
      let code_content := (fetchLoop root).foldl
        (fun acc pd => acc ++ "// File: ".data ++ pd.1 ++ '\n' :: (pd.2 ++ "\n\n".data)) []
      if code_content = [] then
        .error (.http 404 "No supported files found in the repository.".data)
      else .ok code_content

/-- src/functions.py lines 114-132.  The prompt construction, the LLM call
and `json.loads` are external I/O; `llm` maps the two prompt inputs to the
parsed `{alignmentScore, alignmentSummary}` object, or to the
`json.loads` error message when the response is not valid JSON.  The
parsed object is returned unchanged. -/
def analyze_code (llm : PyStr → PyStr → Except PyStr (Int × PyStr))
    (code requirement : PyStr) : Except PyExn (Int × PyStr) :=
  match llm code requirement with
  | .ok v => .ok v
  | .error m => .error (.other m)

/-- src/functions.py lines 134-161.  `llm` maps the three prompt inputs
(code summary, requirement, question count) to the parsed array of
`{question, lookingFor}` pairs, or to the `json.loads` error message.
The question count reaches only the prompt; the parsed array is returned
unchanged — neither truncated nor padded. -/
def generate_questions (llm : PyStr → PyStr → Nat → Except PyStr (List (PyStr × PyStr)))
    (code_summary requirement : PyStr) (question_count : Nat) :
    Except PyExn (List (PyStr × PyStr)) :=
  match llm code_summary requirement question_count with
  | .ok qs => .ok qs
  | .error m => .error (.other m)

/-- src/app.py lines 5-8. -/
structure AnalysisResponse : Type where
  alignment_score : Int
  alignment_summary : PyStr
  questions_list : List (PyStr × PyStr)
deriving Repr, DecidableEq

/-- src/app.py lines 34-37: an `HTTPException` is re-raised with its own
status and detail; any other exception becomes a 500 with the original
message attached. -/
def handlerCatch (r : Except PyExn AnalysisResponse) :
    Except (Nat × PyStr) AnalysisResponse :=
  match r with
  | .ok v => .ok v
  | .error (.http s d) => .error (s, d)
  | .error (.other m) => .error (500, "An unexpected error occurred: ".data ++ m)

/-- src/app.py lines 17-37: clean both text fields, fetch, analyze,
generate questions, assemble the response; exceptions are mapped by
`handlerCatch`. -/
def analyse_github_code (gh : PyStr → GHRepoResult)
    (llm1 : PyStr → PyStr → Except PyStr (Int × PyStr))
    (llm2 : PyStr → PyStr → Nat → Except PyStr (List (PyStr × PyStr)))
    (github_url curriculum : PyStr) (question_count : Nat) :
    Except (Nat × PyStr) AnalysisResponse :=
  handlerCatch (
    match fetch_github_code gh (clean_input github_url) with
    | .error e => .error e
    | .ok code_data =>
      match analyze_code llm1 code_data (clean_input curriculum) with
      | .error e => .error e
      | .ok ar =>
        match generate_questions llm2 ar.2 (clean_input curriculum) question_count with
        | .error e => .error e
        | .ok qs => .ok ⟨ar.1, ar.2, qs⟩)

/-- C2: a path one of whose lowercase segments equals a lowercase forbidden
folder name is rejected, regardless of its extension. -/
theorem path_filter_rejects_forbidden_segment (path : PyStr)
    (h : ∃ f ∈ FORBIDDEN_FOLDERS,
      (pySplit '/' (pyLower path)).contains (pyLower f) = true) :
    should_process_path path = false := by
  obtain ⟨f, hf, hmem⟩ := h
  have hany : FORBIDDEN_FOLDERS.any
      (fun folder => (pySplit '/' (pyLower path)).contains (pyLower folder)) = true :=
    List.any_eq_true.mpr ⟨f, hf, hmem⟩
  simp only [should_process_path, hany, if_true]

theorem path_filter_rejects_forbidden_segment_witness :
    should_process_path "src/NODE_MODULES/lib.js".data = false :=
  path_filter_rejects_forbidden_segment _ (by decide)

/-- The filter only looks at the lowercased path. -/
theorem should_process_path_lower_congr (p q : PyStr)
    (h : pyLower p = pyLower q) :
    should_process_path p = should_process_path q := by
  simp only [should_process_path, h]

/-- C3: a path with no forbidden lowercase segment and a supported extension
(compared case-insensitively) is accepted, and any change of letter case that
leaves the lowercased path unchanged does not change the verdict. -/
theorem path_filter_accepts_supported (path : PyStr)
    (hseg : ∀ f ∈ FORBIDDEN_FOLDERS,
      (pySplit '/' (pyLower path)).contains (pyLower f) = false)
    (hext : ∃ e ∈ SUPPORTED_FILE_EXTENSIONS,
      pyEndsWith (pyLower path) (pyLower e) = true) :
    should_process_path path = true ∧
      ∀ q : PyStr, pyLower q = pyLower path → should_process_path q = true := by
  have hacc : should_process_path path = true := by
    obtain ⟨e, he, hends⟩ := hext
    have hany : FORBIDDEN_FOLDERS.any
        (fun folder => (pySplit '/' (pyLower path)).contains (pyLower folder)) = false := by
      rw [List.any_eq_false]
      intro f hf
      simpa using hseg f hf
    have hany2 : SUPPORTED_FILE_EXTENSIONS.any
        (fun ext => pyEndsWith (pyLower path) (pyLower ext)) = true :=
      List.any_eq_true.mpr ⟨e, he, hends⟩
    simp only [should_process_path, hany, if_false, hany2, Bool.false_eq_true]
  refine ⟨hacc, fun q hq => ?_⟩
  rw [should_process_path_lower_congr q path hq]
  exact hacc

theorem path_filter_accepts_supported_witness :
    should_process_path "Src/Main.PY".data = true ∧
      should_process_path "src/main.py".data = true := by
  have h := path_filter_accepts_supported "Src/Main.PY".data (by decide) (by decide)
  exact ⟨h.1, h.2 "src/main.py".data (by decide)⟩

theorem collapseAux_mem {c : Char} :
    ∀ (s : PyStr) (b : Bool), c ∈ collapseAux b s → c = ' ' ∨ c ∈ s := by
  intro s
  induction s with
  | nil => intro b h; simp [collapseAux] at h
  | cons x xs ih =>
    intro b h
    by_cases hx : isPySpace x = true
    · cases b with
      | true =>
        simp only [collapseAux, hx, if_true] at h
        rcases ih true h with h' | h'
        · exact Or.inl h'
        · exact Or.inr (List.mem_cons_of_mem _ h')
      | false =>
        simp only [collapseAux, hx, if_true] at h
        rcases List.mem_cons.mp h with h' | h'
        · exact Or.inl h'
        · rcases ih true h' with h'' | h''
          · exact Or.inl h''
          · exact Or.inr (List.mem_cons_of_mem _ h'')
    · simp only [collapseAux, hx, if_false, Bool.false_eq_true] at h
      rcases List.mem_cons.mp h with h' | h'
      · exact Or.inr (h' ▸ List.mem_cons_self x xs)
      · rcases ih false h' with h'' | h''
        · exact Or.inl h''
        · exact Or.inr (List.mem_cons_of_mem _ h'')

theorem collapseAux_head_true :
    ∀ (s : PyStr) (c : Char) (cs : PyStr),
      collapseAux true s = c :: cs → isPySpace c = false := by
  intro s
  induction s with
  | nil => intro c cs h; simp [collapseAux] at h
  | cons x xs ih =>
    intro c cs h
    by_cases hx : isPySpace x = true
    · simp only [collapseAux, hx, if_true] at h
      exact ih c cs h
    · simp only [collapseAux, hx, if_false, Bool.false_eq_true] at h
      injection h with h1 _
      rw [← h1]
      simpa using hx

theorem noTwoSpaces_cons_of {a : Char} {l : PyStr}
    (hl : noTwoSpaces l = true)
    (hh : ∀ c, l.head? = some c → (isPySpace a && isPySpace c) = false) :
    noTwoSpaces (a :: l) = true := by
  cases l with
  | nil => simp [noTwoSpaces]
  | cons b bs =>
    have hb := hh b rfl
    simp only [noTwoSpaces, Bool.and_eq_true]
    exact ⟨by simp [hb], hl⟩

theorem collapseAux_noTwo : ∀ (s : PyStr) (b : Bool),
    noTwoSpaces (collapseAux b s) = true := by
  intro s
  induction s with
  | nil => intro b; simp [collapseAux, noTwoSpaces]
  | cons x xs ih =>
    intro b
    by_cases hx : isPySpace x = true
    · cases b with
      | true => simpa only [collapseAux, hx, if_true] using ih true
      | false =>
        simp only [collapseAux, hx, if_true]
        refine noTwoSpaces_cons_of (ih true) ?_
        intro c hc
        cases hrec : collapseAux true xs with
        | nil => simp [hrec] at hc
        | cons y ys =>
          rw [hrec] at hc
          simp only [List.head?_cons, Option.some.injEq] at hc
          subst hc
          simp [collapseAux_head_true xs y ys hrec]
    · simp only [collapseAux, hx, if_false, Bool.false_eq_true]
      refine noTwoSpaces_cons_of (ih false) ?_
      intro c _
      simp [Bool.not_eq_true _ ▸ (by simpa using hx : isPySpace x = false)]

theorem collapseAux_space_is_blank {c : Char} :
    ∀ (s : PyStr) (b : Bool), c ∈ collapseAux b s → isPySpace c = true → c = ' ' := by
  intro s
  induction s with
  | nil => intro b h _; simp [collapseAux] at h
  | cons x xs ih =>
    intro b h hc
    by_cases hx : isPySpace x = true
    · cases b with
      | true =>
        simp only [collapseAux, hx, if_true] at h
        exact ih true h hc
      | false =>
        simp only [collapseAux, hx, if_true] at h
        rcases List.mem_cons.mp h with h' | h'
        · exact h'
        · exact ih true h' hc
    · simp only [collapseAux, hx, if_false, Bool.false_eq_true] at h
      rcases List.mem_cons.mp h with h' | h'
      · subst h'; rw [hc] at hx; exact absurd rfl hx
      · exact ih false h' hc

theorem noTwoSpaces_tail {a : Char} {l : PyStr}
    (h : noTwoSpaces (a :: l) = true) : noTwoSpaces l = true := by
  cases l with
  | nil => simp [noTwoSpaces]
  | cons b bs =>
    simp only [noTwoSpaces, Bool.and_eq_true] at h
    exact h.2

theorem noTwoSpaces_dropWhile {p : Char → Bool} :
    ∀ l : PyStr, noTwoSpaces l = true → noTwoSpaces (l.dropWhile p) = true := by
  intro l
  induction l with
  | nil => intro h; simpa using h
  | cons x xs ih =>
    intro h
    by_cases hx : p x = true
    · rw [List.dropWhile_cons_of_pos hx]
      exact ih (noTwoSpaces_tail h)
    · rwa [List.dropWhile_cons_of_neg (by simpa using hx)]

theorem noTwoSpaces_append_left :
    ∀ (l₁ l₂ : PyStr), noTwoSpaces (l₁ ++ l₂) = true → noTwoSpaces l₁ = true := by
  intro l₁
  induction l₁ with
  | nil => intro l₂ _; simp [noTwoSpaces]
  | cons a t ih =>
    intro l₂ h
    cases t with
    | nil => simp [noTwoSpaces]
    | cons b r =>
      simp only [List.cons_append, noTwoSpaces, Bool.and_eq_true] at h ⊢
      exact ⟨h.1, by simpa [noTwoSpaces] using ih l₂ (by simpa [noTwoSpaces] using h.2)⟩

theorem pyRStrip_append (s : PyStr) :
    s = pyRStrip s ++ (s.reverse.takeWhile isPySpace).reverse := by
  unfold pyRStrip
  rw [← List.reverse_append, List.takeWhile_append_dropWhile, List.reverse_reverse]

theorem dropWhile_head_false {p : Char → Bool} :
    ∀ (l : PyStr) (c : Char) (cs : PyStr), l.dropWhile p = c :: cs → p c = false := by
  intro l
  induction l with
  | nil => intro c cs h; simp at h
  | cons x xs ih =>
    intro c cs h
    by_cases hx : p x = true
    · rw [List.dropWhile_cons_of_pos hx] at h
      exact ih c cs h
    · rw [List.dropWhile_cons_of_neg (by simpa using hx)] at h
      injection h with h1 _
      rw [← h1]
      simpa using hx

theorem dropWhile_head?_false {p : Char → Bool} (l : PyStr) (c : Char)
    (h : (l.dropWhile p).head? = some c) : p c = false := by
  cases hdw : l.dropWhile p with
  | nil => rw [hdw] at h; simp at h
  | cons y ys =>
    rw [hdw] at h
    simp only [List.head?_cons, Option.some.injEq] at h
    subst h
    exact dropWhile_head_false l y ys hdw

theorem pyRStrip_sublist (s : PyStr) : (pyRStrip s).Sublist s := by
  unfold pyRStrip
  have h := List.dropWhile_sublist (l := s.reverse) isPySpace
  simpa using h.reverse

theorem pyStrip_sublist (s : PyStr) : (pyStrip s).Sublist s :=
  (pyRStrip_sublist (pyLStrip s)).trans (List.dropWhile_sublist isPySpace)

/-- C6: `clean_input` leaves no control characters, its whitespace is only
single blanks (never two adjacent), and nothing leading or trailing. -/
theorem clean_input_sanitizes (s : PyStr) :
    (clean_input s).all (fun c => !(isControl c)) = true ∧
    (clean_input s).all (fun c => !(isPySpace c) || (c == ' ')) = true ∧
    noTwoSpaces (clean_input s) = true ∧
    (clean_input s).head?.all (fun c => !(isPySpace c)) = true ∧
    (clean_input s).getLast?.all (fun c => !(isPySpace c)) = true := by
  have hsub : (clean_input s).Sublist (collapseAux false (removeControls s)) :=
    pyStrip_sublist _
  have hmem : ∀ c ∈ clean_input s, c ∈ collapseAux false (removeControls s) :=
    fun c hc => hsub.subset hc
  refine ⟨?_, ?_, ?_, ?_, ?_⟩
  · rw [List.all_eq_true]
    intro c hc
    rcases collapseAux_mem _ _ (hmem c hc) with h | h
    · subst h; decide
    · have := List.of_mem_filter h
      simpa using this
  · rw [List.all_eq_true]
    intro c hc
    by_cases hsp : isPySpace c = true
    · have := collapseAux_space_is_blank _ _ (hmem c hc) hsp
      subst this; decide
    · simp [hsp]
  · have h1 : noTwoSpaces (pyLStrip (collapseAux false (removeControls s))) = true :=
      noTwoSpaces_dropWhile _ (collapseAux_noTwo _ _)
    have h2 := pyRStrip_append (pyLStrip (collapseAux false (removeControls s)))
    exact noTwoSpaces_append_left _ _ (h2 ▸ h1)
  · cases hcl : clean_input s with
    | nil => simp
    | cons c cs =>
      have hsplit := pyRStrip_append (pyLStrip (collapseAux false (removeControls s)))
      rw [show pyRStrip (pyLStrip (collapseAux false (removeControls s))) = c :: cs
        from hcl] at hsplit
      have hd : isPySpace c = false := by
        refine dropWhile_head?_false (collapseAux false (removeControls s)) c ?_
        rw [show List.dropWhile isPySpace (collapseAux false (removeControls s)) =
          pyLStrip (collapseAux false (removeControls s)) from rfl, hsplit]
        rfl
      simp [hd]
  · cases hh : (clean_input s).getLast? with
    | none => simp
    | some c =>
      have : (clean_input s).getLast? =
          ((pyLStrip (collapseAux false (removeControls s))).reverse.dropWhile
            isPySpace).head? := by
        simp only [clean_input, pyStrip, pyRStrip]
        rw [List.getLast?_reverse]
      rw [hh] at this
      cases hdw : (pyLStrip (collapseAux false (removeControls s))).reverse.dropWhile
          isPySpace with
      | nil => rw [hdw] at this; simp at this
      | cons y ys =>
        rw [hdw] at this
        simp only [List.head?_cons, Option.some.injEq] at this
        subst this
        simp [dropWhile_head_false _ _ _ hdw]

theorem fetchLoop_nil : fetchLoop [] = [] := by
  simp [fetchLoop]

theorem fetchLoop_dir (p : PyStr) (cs rest : List GHEntry) :
    fetchLoop (.dir p cs :: rest) =
      if prunedDir p then fetchLoop rest else fetchLoop (rest ++ cs) := by
  simp [fetchLoop]

theorem fetchLoop_file_some (p : PyStr) (d : PyStr) (rest : List GHEntry) :
    fetchLoop (.file p (some d) :: rest) =
      if should_process_path p then (p, d) :: fetchLoop rest else fetchLoop rest := by
  simp [fetchLoop]

theorem fetchLoop_file_none (p : PyStr) (rest : List GHEntry) :
    fetchLoop (.file p none :: rest) = fetchLoop rest := by
  simp [fetchLoop]

theorem reachFiles_nil : reachFiles [] = [] := by
  simp [reachFiles]

theorem reachFiles_dir (p : PyStr) (cs rest : List GHEntry) :
    reachFiles (.dir p cs :: rest) =
      (if prunedDir p then [] else reachFiles cs) ++ reachFiles rest := by
  simp [reachFiles]

theorem reachFiles_file (p : PyStr) (c : Option PyStr) (rest : List GHEntry) :
    reachFiles (.file p c :: rest) =
      (if should_process_path p && c.isSome then [p] else []) ++ reachFiles rest := by
  simp [reachFiles]

theorem allFiles_nil : allFiles [] = [] := by
  simp [allFiles]

theorem allFiles_dir (p : PyStr) (cs rest : List GHEntry) :
    allFiles (.dir p cs :: rest) = allFiles cs ++ allFiles rest := by
  simp [allFiles]

theorem allFiles_file (p : PyStr) (c : Option PyStr) (rest : List GHEntry) :
    allFiles (.file p c :: rest) = p :: allFiles rest := by
  simp [allFiles]

theorem allFiles_append (q₁ q₂ : List GHEntry) :
    allFiles (q₁ ++ q₂) = allFiles q₁ ++ allFiles q₂ := by
  induction q₁ with
  | nil => simp [allFiles_nil]
  | cons e rest ih =>
    cases e with
    | file p c => simp [allFiles_file, ih]
    | dir p cs => simp [allFiles_dir, ih]

theorem fetchLoop_append_perm :
    ∀ q₁ q₂ : List GHEntry,
      List.Perm (fetchLoop (q₁ ++ q₂)) (fetchLoop q₁ ++ fetchLoop q₂) := by
  suffices key : ∀ (n : Nat) (q₁ q₂ : List GHEntry), sizeL q₁ + sizeL q₂ ≤ n →
      List.Perm (fetchLoop (q₁ ++ q₂)) (fetchLoop q₁ ++ fetchLoop q₂) by
    exact fun q₁ q₂ => key (sizeL q₁ + sizeL q₂) q₁ q₂ le_rfl
  intro n
  induction n with
  | zero =>
    intro q₁ q₂ h
    cases q₁ with
    | nil => simp [fetchLoop_nil]
    | cons e rest =>
      exfalso
      have := entrySize_pos e
      rw [sizeL_cons] at h
      omega
  | succ n ih =>
    intro q₁ q₂ h
    cases q₁ with
    | nil => simp [fetchLoop_nil]
    | cons e rest =>
      rw [sizeL_cons] at h
      cases e with
      | file p c =>
        have hle : sizeL rest + sizeL q₂ ≤ n := by
          simp only [entrySize] at h
          omega
        cases c with
        | some d =>
          rw [List.cons_append, fetchLoop_file_some, fetchLoop_file_some]
          by_cases hs : should_process_path p = true
          · simp only [hs, if_true]
            rw [List.cons_append]
            exact (ih rest q₂ hle).cons (p, d)
          · simp only [hs, Bool.false_eq_true, if_false]
            exact ih rest q₂ hle
        | none =>
          rw [List.cons_append, fetchLoop_file_none, fetchLoop_file_none]
          exact ih rest q₂ hle
      | dir p cs =>
        have hsz : sizeL cs + sizeL rest + sizeL q₂ ≤ n := by
          simp only [entrySize] at h
          omega
        rw [List.cons_append, fetchLoop_dir, fetchLoop_dir]
        by_cases hp : prunedDir p = true
        · simp only [hp, if_true]
          exact ih rest q₂ (by omega)
        · simp only [hp, Bool.false_eq_true, if_false]
          rw [List.append_assoc]
          refine (ih rest (q₂ ++ cs) (by rw [sizeL_append]; omega)).trans ?_
          refine (List.Perm.append_left _ (ih q₂ cs (by omega))).trans ?_
          refine (List.Perm.append_left _ List.perm_append_comm).trans ?_
          rw [← List.append_assoc]
          exact List.Perm.append_right _ (ih rest cs (by omega)).symm

/-- C1 (amended): the traversal's file-path markers are, up to order,
exactly the reachable qualifying decodable files: accepted by
`should_process_path`, decodable, and under no directory pruned by the
substring check of line 90. -/
theorem fetch_markers_perm_reachable (q : List GHEntry) :
    List.Perm ((fetchLoop q).map Prod.fst) (reachFiles q) := by
  suffices key : ∀ (n : Nat) (q : List GHEntry), sizeL q ≤ n →
      List.Perm ((fetchLoop q).map Prod.fst) (reachFiles q) from
    key (sizeL q) q le_rfl
  intro n
  induction n with
  | zero =>
    intro q h
    cases q with
    | nil => simp [fetchLoop_nil, reachFiles_nil]
    | cons e rest =>
      exfalso
      have := entrySize_pos e
      rw [sizeL_cons] at h
      omega
  | succ n ih =>
    intro q h
    cases q with
    | nil => simp [fetchLoop_nil, reachFiles_nil]
    | cons e rest =>
      rw [sizeL_cons] at h
      cases e with
      | file p c =>
        have hle : sizeL rest ≤ n := by
          simp only [entrySize] at h
          omega
        rw [reachFiles_file]
        cases c with
        | some d =>
          rw [fetchLoop_file_some]
          by_cases hs : should_process_path p = true
          · simp only [hs, Option.isSome_some, Bool.and_self, if_true, List.map_cons,
              List.singleton_append]
            exact (ih rest hle).cons p
          · simp only [hs, Bool.false_eq_true, if_false, Bool.false_and, List.nil_append]
            exact ih rest hle
        | none =>
          rw [fetchLoop_file_none]
          simp only [Option.isSome_none, Bool.and_false, if_false, List.nil_append]
          exact ih rest hle
      | dir p cs =>
        have hsz : sizeL cs + sizeL rest ≤ n := by
          simp only [entrySize] at h
          omega
        rw [fetchLoop_dir, reachFiles_dir]
        by_cases hp : prunedDir p = true
        · simp only [hp, if_true, List.nil_append]
          exact ih rest (by omega)
        · simp only [hp, Bool.false_eq_true, if_false]
          refine ((fetchLoop_append_perm rest cs).map Prod.fst).trans ?_
          rw [List.map_append]
          refine (List.Perm.append (ih rest (by omega)) (ih cs (by omega))).trans ?_
          exact List.perm_append_comm

/-- C1 (counterexample): in the tree with the single directory `cabinet`
holding the single file `cabinet/app.js`, that file is accepted by the
path filter — so the claim demands exactly one marker — yet the traversal
emits no marker at all: the directory's path contains the forbidden name
`bin` as a substring (line 90 checks substring containment on the whole
path, not segment equality), so the directory is pruned unvisited. -/
theorem fetch_markers_miss_pruned_qualifying :
    should_process_path "cabinet/app.js".data = true ∧
    (allFiles [GHEntry.dir "cabinet".data
        [GHEntry.file "cabinet/app.js".data (some "x".data)]]).filter
        should_process_path = ["cabinet/app.js".data] ∧
    (fetchLoop [GHEntry.dir "cabinet".data
        [GHEntry.file "cabinet/app.js".data (some "x".data)]]).map Prod.fst = [] := by
  refine ⟨by decide, ?_, ?_⟩
  · rw [show allFiles [GHEntry.dir "cabinet".data
        [GHEntry.file "cabinet/app.js".data (some "x".data)]] =
        ["cabinet/app.js".data] from by simp [allFiles]]
    decide
  · rw [fetchLoop_dir, if_pos (by decide : prunedDir "cabinet".data = true), fetchLoop_nil]
    rfl

theorem fetchLoop_eq_nil_of_no_qualifying :
    ∀ q : List GHEntry, (∀ p ∈ allFiles q, should_process_path p = false) →
      fetchLoop q = [] := by
  suffices key : ∀ (n : Nat) (q : List GHEntry), sizeL q ≤ n →
      (∀ p ∈ allFiles q, should_process_path p = false) → fetchLoop q = [] from
    fun q => key (sizeL q) q le_rfl
  intro n
  induction n with
  | zero =>
    intro q h _
    cases q with
    | nil => exact fetchLoop_nil
    | cons e rest =>
      exfalso
      have := entrySize_pos e
      rw [sizeL_cons] at h
      omega
  | succ n ih =>
    intro q h hq
    cases q with
    | nil => exact fetchLoop_nil
    | cons e rest =>
      rw [sizeL_cons] at h
      cases e with
      | file p c =>
        have hp : should_process_path p = false := by
          refine hq p ?_
          rw [allFiles_file]
          exact List.mem_cons_self _ _
        have hrest : ∀ x ∈ allFiles rest, should_process_path x = false := by
          intro x hx
          refine hq x ?_
          rw [allFiles_file]
          exact List.mem_cons_of_mem _ hx
        have hrec := ih rest (by simp only [entrySize] at h; omega) hrest
        cases c with
        | some d => rw [fetchLoop_file_some, hp]; simpa using hrec
        | none => rw [fetchLoop_file_none]; exact hrec
      | dir p cs =>
        have hsz : sizeL cs + sizeL rest ≤ n := by
          simp only [entrySize] at h
          omega
        have hboth : ∀ x ∈ allFiles (rest ++ cs), should_process_path x = false := by
          intro x hx
          rw [allFiles_append] at hx
          refine hq x ?_
          rw [allFiles_dir]
          rcases List.mem_append.mp hx with hx | hx
          · exact List.mem_append.mpr (Or.inr hx)
          · exact List.mem_append.mpr (Or.inl hx)
        have hrest : ∀ x ∈ allFiles rest, should_process_path x = false := by
          intro x hx
          exact hboth x (by rw [allFiles_append]; exact List.mem_append.mpr (Or.inl hx))
        rw [fetchLoop_dir]
        by_cases hpr : prunedDir p = true
        · rw [if_pos hpr]
          exact ih rest (by omega) hrest
        · rw [if_neg hpr]
          exact ih (rest ++ cs) (by rw [sizeL_append]; omega) hboth

/-- C4: when no file of the repository tree qualifies under the path
filter, `fetch_github_code` fails with the 404 empty-result error of
lines 102-103 instead of returning an empty success. -/
theorem empty_fetch_raises_404 (root : List GHEntry) (url : PyStr)
    (hq : ∀ p ∈ allFiles root, should_process_path p = false)
    (hu : 2 ≤ (pySplit '/' url).length) :
    fetch_github_code (fun _ => .ok root) url =
      .error (.http 404 "No supported files found in the repository.".data) := by
  have hnil : fetchLoop root = [] := fetchLoop_eq_nil_of_no_qualifying root hq
  unfold fetch_github_code repoId
  rw [dif_pos hu]
  simp [hnil]

theorem empty_fetch_raises_404_witness :
    fetch_github_code
      (fun _ => .ok [GHEntry.file "README.md".data (some "hello".data)])
      "octocat/Hello-World".data =
      .error (.http 404 "No supported files found in the repository.".data) := by
  refine empty_fetch_raises_404 _ _ ?_ (by decide)
  intro p hp
  rw [allFiles_file, allFiles_nil] at hp
  rw [List.mem_singleton.mp hp]
  decide

/-- C5: the failure mapping of lines 102-112 and app.py lines 34-37 —
401 for a hosting-service authentication failure, 404 for repository
not found and for the no-qualifying-files case, 500 for every other
hosting fault and for every non-HTTPException; each failure carries its
detail string. -/
theorem failure_status_mapping :
    (∀ (url : PyStr) (e : GHException), 2 ≤ (pySplit '/' url).length →
      e.status = 401 →
      fetch_github_code (fun _ => .err e) url =
        .error (.http 401 "GitHub authentication failed. Please check your access token.".data)) ∧
    (∀ (url : PyStr) (e : GHException), 2 ≤ (pySplit '/' url).length →
      e.status = 404 →
      fetch_github_code (fun _ => .err e) url =
        .error (.http 404 "GitHub repository not found. Please check the URL.".data)) ∧
    (∀ (url : PyStr) (e : GHException), 2 ≤ (pySplit '/' url).length →
      e.status ≠ 401 → e.status ≠ 404 →
      fetch_github_code (fun _ => .err e) url =
        .error (.http 500 ("GitHub API error: ".data ++ e.msg))) ∧
    (∀ (url : PyStr) (root : List GHEntry), 2 ≤ (pySplit '/' url).length →
      fetchLoop root = [] →
      fetch_github_code (fun _ => .ok root) url =
        .error (.http 404 "No supported files found in the repository.".data)) ∧
    (∀ (s : Nat) (d : PyStr), handlerCatch (.error (.http s d)) = .error (s, d)) ∧
    (∀ m : PyStr, handlerCatch (.error (.other m)) =
      .error (500, "An unexpected error occurred: ".data ++ m)) := by
  refine ⟨?_, ?_, ?_, ?_, ?_, ?_⟩
  · intro url e hu h
    unfold fetch_github_code repoId
    rw [dif_pos hu]
    simp [h]
  · intro url e hu h
    unfold fetch_github_code repoId
    rw [dif_pos hu]
    simp [h]
  · intro url e hu h1 h2
    unfold fetch_github_code repoId
    rw [dif_pos hu]
    simp [h1, h2]
  · intro url root hu h
    unfold fetch_github_code repoId
    rw [dif_pos hu]
    simp [h]
  · intro s d
    rfl
  · intro m
    rfl

theorem failure_status_mapping_witness :
    fetch_github_code (fun _ => .err ⟨401, "x".data⟩) "o/r".data =
      .error (.http 401 "GitHub authentication failed. Please check your access token.".data) ∧
    fetch_github_code (fun _ => .err ⟨404, "x".data⟩) "o/r".data =
      .error (.http 404 "GitHub repository not found. Please check the URL.".data) ∧
    fetch_github_code (fun _ => .err ⟨403, "rate limit exceeded".data⟩) "o/r".data =
      .error (.http 500 ("GitHub API error: ".data ++ "rate limit exceeded".data)) ∧
    fetch_github_code (fun _ => .ok []) "o/r".data =
      .error (.http 404 "No supported files found in the repository.".data) ∧
    handlerCatch (.error (.http 401 "d".data)) = .error (401, "d".data) ∧
    handlerCatch (.error (.other "boom".data)) =
      .error (500, "An unexpected error occurred: ".data ++ "boom".data) :=
  ⟨failure_status_mapping.1 "o/r".data ⟨401, "x".data⟩ (by decide) rfl,
   failure_status_mapping.2.1 "o/r".data ⟨404, "x".data⟩ (by decide) rfl,
   failure_status_mapping.2.2.1 "o/r".data ⟨403, "rate limit exceeded".data⟩
     (by decide) (by decide) (by decide),
   failure_status_mapping.2.2.2.1 "o/r".data [] (by decide) fetchLoop_nil,
   failure_status_mapping.2.2.2.2.1 401 "d".data,
   failure_status_mapping.2.2.2.2.2 "boom".data⟩

/-- C7: when the LLM response for either call does not parse as the
expected JSON shape, the endpoint fails with status 500 and the original
message attached — no default score, no fallback value. -/
theorem malformed_llm_output_500
    (gh : PyStr → GHRepoResult)
    (llm1 : PyStr → PyStr → Except PyStr (Int × PyStr))
    (llm2 : PyStr → PyStr → Nat → Except PyStr (List (PyStr × PyStr)))
    (url cur : PyStr) (n : Nat) (code msg : PyStr)
    (hf : fetch_github_code gh (clean_input url) = .ok code) :
    (llm1 code (clean_input cur) = .error msg →
      analyse_github_code gh llm1 llm2 url cur n =
        .error (500, "An unexpected error occurred: ".data ++ msg)) ∧
    (∀ (sc : Int) (sum : PyStr), llm1 code (clean_input cur) = .ok (sc, sum) →
      llm2 sum (clean_input cur) n = .error msg →
      analyse_github_code gh llm1 llm2 url cur n =
        .error (500, "An unexpected error occurred: ".data ++ msg)) := by
  constructor
  · intro h1
    simp [analyse_github_code, analyze_code, handlerCatch, hf, h1]
  · intro sc sum h1 h2
    simp [analyse_github_code, analyze_code, generate_questions, handlerCatch, hf, h1, h2]

theorem malformed_llm_output_500_witness :
    analyse_github_code
      (fun _ => .ok [GHEntry.file "a.js".data (some "x".data)])
      (fun _ _ => .error "Expecting value".data)
      (fun _ _ _ => .ok [])
      "o/r".data "req".data 5 =
      .error (500, "An unexpected error occurred: ".data ++ "Expecting value".data) := by
  have hloop : fetchLoop [GHEntry.file "a.js".data (some "x".data)] =
      [("a.js".data, "x".data)] := by
    rw [fetchLoop_file_some, if_pos (by decide), fetchLoop_nil]
  have hf : fetch_github_code
      (fun _ => GHRepoResult.ok [GHEntry.file "a.js".data (some "x".data)])
      (clean_input "o/r".data) = .ok "// File: a.js\nx\n\n".data := by
    rw [show clean_input "o/r".data = "o/r".data from by decide]
    unfold fetch_github_code repoId
    rw [dif_pos (by decide : 2 ≤ (pySplit '/' "o/r".data).length)]
    simp only [hloop]
    rfl
  exact (malformed_llm_output_500 _ _ _ "o/r".data "req".data 5
    "// File: a.js\nx\n\n".data "Expecting value".data hf).1 rfl

theorem fetchLoop_drop_undecodable :
    ∀ (q₁ q₂ : List GHEntry) (p : PyStr),
      fetchLoop (q₁ ++ GHEntry.file p none :: q₂) = fetchLoop (q₁ ++ q₂) := by
  suffices key : ∀ (n : Nat) (q₁ q₂ : List GHEntry) (p : PyStr),
      sizeL q₁ + sizeL q₂ ≤ n →
      fetchLoop (q₁ ++ GHEntry.file p none :: q₂) = fetchLoop (q₁ ++ q₂) from
    fun q₁ q₂ p => key (sizeL q₁ + sizeL q₂) q₁ q₂ p le_rfl
  intro n
  induction n with
  | zero =>
    intro q₁ q₂ p h
    cases q₁ with
    | nil =>
      simp only [List.nil_append]
      exact fetchLoop_file_none p q₂
    | cons e rest =>
      exfalso
      have := entrySize_pos e
      rw [sizeL_cons] at h
      omega
  | succ n ih =>
    intro q₁ q₂ p h
    cases q₁ with
    | nil =>
      simp only [List.nil_append]
      exact fetchLoop_file_none p q₂
    | cons e rest =>
      rw [sizeL_cons] at h
      cases e with
      | file f c =>
        have hle : sizeL rest + sizeL q₂ ≤ n := by
          simp only [entrySize] at h
          omega
        cases c with
        | some d =>
          rw [List.cons_append, List.cons_append, fetchLoop_file_some, fetchLoop_file_some]
          rw [ih rest q₂ p hle]
        | none =>
          rw [List.cons_append, List.cons_append, fetchLoop_file_none, fetchLoop_file_none]
          exact ih rest q₂ p hle
      | dir f cs =>
        have hsz : sizeL cs + sizeL rest + sizeL q₂ ≤ n := by
          simp only [entrySize] at h
          omega
        rw [List.cons_append, List.cons_append, fetchLoop_dir, fetchLoop_dir]
        by_cases hp : prunedDir f = true
        · rw [if_pos hp, if_pos hp]
          exact ih rest q₂ p (by omega)
        · rw [if_neg hp, if_neg hp]
          have e1 : (rest ++ GHEntry.file p none :: q₂) ++ cs =
              rest ++ GHEntry.file p none :: (q₂ ++ cs) := by
            rw [List.append_assoc, List.cons_append]
          rw [e1, ih rest (q₂ ++ cs) p (by rw [sizeL_append]; omega), ← List.append_assoc]

/-- C8: a qualifying file whose content fails to decode is skipped and the
traversal continues: the emitted segments, and hence the whole fetch
result, are the same as for the tree without that file. -/
theorem decode_failure_file_skipped (q₁ q₂ : List GHEntry) (p : PyStr) :
    fetchLoop (q₁ ++ GHEntry.file p none :: q₂) = fetchLoop (q₁ ++ q₂) ∧
    ∀ url : PyStr,
      fetch_github_code (fun _ => .ok (q₁ ++ GHEntry.file p none :: q₂)) url =
        fetch_github_code (fun _ => .ok (q₁ ++ q₂)) url := by
  refine ⟨fetchLoop_drop_undecodable q₁ q₂ p, ?_⟩
  intro url
  unfold fetch_github_code
  cases h : repoId url with
  | none => rfl
  | some pr => simp [fetchLoop_drop_undecodable q₁ q₂ p]

/-- C9 (amended): `generate_questions` returns exactly the array parsed
from the LLM response — never truncated or padded to the requested count;
the count only reaches the prompt, so the `length ≤ question_count` bound
is not enforced by the code. -/
theorem generate_questions_returns_parsed
    (llm : PyStr → PyStr → Nat → Except PyStr (List (PyStr × PyStr)))
    (s r : PyStr) (n : Nat) (qs : List (PyStr × PyStr))
    (h : llm s r n = .ok qs) :
    generate_questions llm s r n = .ok qs := by
  simp [generate_questions, h]

theorem generate_questions_returns_parsed_witness :
    generate_questions (fun _ _ _ => .ok [("q".data, "l".data)])
      "sum".data "req".data 3 = .ok [("q".data, "l".data)] :=
  generate_questions_returns_parsed _ "sum".data "req".data 3
    [("q".data, "l".data)] rfl

/-- The six-question array an adversarial LLM can return for a
five-question request. -/
def sixQuestions : List (PyStr × PyStr) :=
  [("q1".data, "l1".data), ("q2".data, "l2".data), ("q3".data, "l3".data),
   ("q4".data, "l4".data), ("q5".data, "l5".data), ("q6".data, "l6".data)]

/-- C9 (counterexample): with the question count 5, a parsed response of
six questions is returned as-is, so the returned sequence's length
exceeds the requested count. -/
theorem question_count_not_enforced_cex :
    generate_questions (fun _ _ _ => .ok sixQuestions)
      "sum".data "req".data 5 = .ok sixQuestions ∧
    ¬ sixQuestions.length ≤ 5 :=
  ⟨rfl, by decide⟩

theorem pySplit_ne_nil (sep : Char) : ∀ s : PyStr, pySplit sep s ≠ [] := by
  intro s
  cases s with
  | nil => simp [pySplit]
  | cons c cs =>
    simp only [pySplit]
    by_cases h : c = sep
    · simp [h]
    · simp only [h, if_false]
      cases hrec : pySplit sep cs <;> simp

theorem pySplit_append_sep (sep : Char) :
    ∀ s : PyStr, pySplit sep (s ++ [sep]) = pySplit sep s ++ [[]] := by
  intro s
  induction s with
  | nil => simp [pySplit]
  | cons c cs ih =>
    rw [List.cons_append]
    by_cases h : c = sep
    · rw [show pySplit sep (c :: (cs ++ [sep])) = [] :: pySplit sep (cs ++ [sep])
        from by simp [pySplit, h]]
      rw [ih]
      rw [show pySplit sep (c :: cs) = [] :: pySplit sep cs from by simp [pySplit, h]]
      rfl
    · cases hrec : pySplit sep cs with
      | nil => exact absurd hrec (pySplit_ne_nil sep cs)
      | cons p ps =>
        have h1 : pySplit sep (cs ++ [sep]) = p :: (ps ++ [[]]) := by
          rw [ih, hrec]
          rfl
        rw [show pySplit sep (c :: (cs ++ [sep])) = (c :: p) :: (ps ++ [[]])
          from by simp [pySplit, h, h1]]
        rw [show pySplit sep (c :: cs) = (c :: p) :: ps from by simp [pySplit, h, hrec]]
        rfl

theorem repoId_eq (url : PyStr) (h : 2 ≤ (pySplit '/' url).length) :
    repoId url = some
      ((pySplit '/' url).get ⟨(pySplit '/' url).length - 2, by omega⟩,
       (pySplit '/' url).get ⟨(pySplit '/' url).length - 1, by omega⟩) := by
  unfold repoId
  rw [dif_pos h]

/-- C10 (counterexample): for the slash-free URL `abc` no identifier is
derived at all: the `parts[-2]` lookup of line 78 fails (IndexError)
before the hosting service is consulted, so the fetch returns the
unhandled-exception error even though the hosting service `gh` would
have answered successfully. -/
theorem url_without_slash_index_error :
    repoId "abc".data = none ∧
    fetch_github_code
      (fun _ => GHRepoResult.ok [GHEntry.file "a.py".data (some "x".data)])
      "abc".data = .error (.other "list index out of range".data) :=
  ⟨rfl, rfl⟩

/-- C10 (amended): for every URL whose split has at least two components
the identifier is exactly the last two components, a trailing slash
yields an empty repository name, and a URL with fewer than two
components raises the index error before any hosting-service call —
there is no explicit validation step. -/
theorem repo_id_last_two_components :
    (∀ (url : PyStr) (h : 2 ≤ (pySplit '/' url).length),
      repoId url = some
        ((pySplit '/' url).get ⟨(pySplit '/' url).length - 2, by omega⟩,
         (pySplit '/' url).get ⟨(pySplit '/' url).length - 1, by omega⟩)) ∧
    (∀ s : PyStr, ∃ owner : PyStr, repoId (s ++ ['/']) = some (owner, [])) ∧
    (∀ url : PyStr, (pySplit '/' url).length < 2 → ∀ gh : PyStr → GHRepoResult,
      fetch_github_code gh url = .error (.other "list index out of range".data)) := by
  refine ⟨repoId_eq, ?_, ?_⟩
  · intro s
    have hsp := pySplit_append_sep '/' s
    have hpos : 0 < (pySplit '/' s).length := List.length_pos.mpr (pySplit_ne_nil '/' s)
    have hlen : 2 ≤ (pySplit '/' (s ++ ['/'])).length := by
      rw [hsp, List.length_append]
      simp
      omega
    have hgoal : (pySplit '/' (s ++ ['/'])).get
        ⟨(pySplit '/' (s ++ ['/'])).length - 1, by omega⟩ = ([] : PyStr) := by
      have h1 : (pySplit '/' (s ++ ['/'])).getLast? = some ([] : PyStr) := by
        rw [hsp]
        exact List.getLast?_concat _
      rw [List.getLast?_eq_getElem?] at h1
      rw [List.getElem?_eq_getElem (by omega)] at h1
      simpa [List.get_eq_getElem] using h1
    rw [repoId_eq _ hlen, hgoal]
    exact ⟨_, rfl⟩
  · intro url h gh
    unfold fetch_github_code repoId
    rw [dif_neg (by omega)]

theorem repo_id_last_two_components_witness :
    repoId "github.com/octocat/Hello-World".data =
      some ("octocat".data, "Hello-World".data) ∧
    (∃ owner : PyStr, repoId ("a/b".data ++ ['/']) = some (owner, [])) ∧
    fetch_github_code (fun _ => GHRepoResult.ok []) "xyz".data =
      .error (.other "list index out of range".data) :=
  ⟨(repo_id_last_two_components.1 "github.com/octocat/Hello-World".data
      (by decide)).trans (by decide),
   repo_id_last_two_components.2.1 "a/b".data,
   repo_id_last_two_components.2.2 "xyz".data (by decide) _⟩
